import Mathlib

/-!
Verification of the version-ordering, reorder-on-write and clone logic of the
Case Conductor `ProductVersion` model (`cc.core.models`), against its
specification and test suite (`tests/core/models/test_productversion.py`).

The implementation module `cc/core/models.py` itself is not part of the
visible sources (only its tests and a view module are), so the definitions
below are modelled from the specification's description of `VersionKey`,
`Reorder-on-write` and `Clone` (spec sections 4.1-4.3), and from the behavior
documented by the test suite.
-/

namespace CaseConductor

/-- Numeric value of a run of decimal digit characters (most significant
first), as accumulated left to right. -/
def digitsToNat (cs : List Char) : Nat :=
  cs.foldl (fun a c => a * 10 + (c.toNat - 48)) 0

/-- Modelled from the spec: `VersionKey` splits a version string into maximal
numeric runs and individual non-numeric characters (spec 4.1 rule 1),
"preserving order".  Each numeric run is a single token carrying its numeric
value, so that numeric segments compare "by numeric value rather than
lexicographically" (rule 2, the idealized fixed-width zero-padding); each
non-numeric character is a token carrying its code point, so non-numeric
segments compare lexicographically (rule 3).  A token is flattened to two
naturals: a numeric run becomes `[48, value + 1]` (48 is the code of `0`,
the leading character of any zero-padded numeral) and a plain character `c`
becomes `[c.toNat, 0]`.  The accumulator holds the value of the digit run
currently being read, if any. -/
def tokensAux : Option Nat → List Char → List Nat
  | none, [] => []
  | some n, [] => [48, n + 1]
  | none, c :: cs =>
      if c.isDigit then tokensAux (some (c.toNat - 48)) cs
      else c.toNat :: 0 :: tokensAux none cs
  | some n, c :: cs =>
      if c.isDigit then tokensAux (some (n * 10 + (c.toNat - 48))) cs
      else 48 :: (n + 1) :: c.toNat :: 0 :: tokensAux none cs

/-- Token stream of a character list, starting outside any digit run. -/
def tokens (cs : List Char) : List Nat := tokensAux none cs

/-- Modelled from the spec: the sortable key of a version string (spec 4.1).
A terminal marker token is appended whose code point (126, `~`) lies above
every alphabetic character, so that a version extended by an alphabetic
pre-release suffix sorts before the bare (final) version (rule 4). -/
def versionKey (s : String) : List Nat :=
  tokens s.data ++ [126]

/-- Strict lexicographic comparison of flattened keys. -/
def keyLt : List Nat → List Nat → Bool
  | [], [] => false
  | [], _ :: _ => true
  | _ :: _, [] => false
  | a :: as, b :: bs => a < b || (a == b && keyLt as bs)

/-- Non-strict lexicographic comparison of flattened keys. -/
def keyLe : List Nat → List Nat → Bool
  | [], _ => true
  | _ :: _, [] => false
  | a :: as, b :: bs => a < b || (a == b && keyLe as bs)

/-- Comparison of two version strings through their `VersionKey`s
("two version strings compare via their derived keys, never via raw
lexicographic string comparison", spec section 3). -/
def versionLe (a b : String) : Prop := keyLe (versionKey a) (versionKey b) = true

instance : DecidableRel versionLe := fun _ _ =>
  inferInstanceAs (Decidable (_ = true))

/-- Sorting a list of version strings by their `VersionKey`s, as the test
helper `assertOrder` does with `sorted(objs, key=by_version)`. -/
def sortVersions (vs : List String) : List String :=
  vs.insertionSort versionLe

/-- Modelled from the spec: a `VersionedEntity` (spec section 3) carries a
`version` string, an integer `order` (dense rank among siblings), a reference
to its `parent`, and a display `codename`. -/
structure VersionedEntity where
  id : Nat
  version : String
  codename : String
  order : Nat
  parent : Nat
deriving DecidableEq

/-- The sort key function for versioned entities (`cc.core.models.by_version`,
used by the tests via `sorted(objs, key=by_version)`): the `VersionKey` of the
entity's `version` string. -/
def by_version (pv : VersionedEntity) : List Nat := versionKey pv.version

/-- Sibling comparison used by Reorder-on-write: compare `by_version` keys. -/
def entityLe (a b : VersionedEntity) : Prop := keyLe (by_version a) (by_version b) = true

instance : DecidableRel entityLe := fun _ _ =>
  inferInstanceAs (Decidable (_ = true))

/-- Assign consecutive `order` ranks starting at `k` down a list. -/
def assignOrders : Nat → List VersionedEntity → List VersionedEntity
  | _, [] => []
  | k, e :: rest => { e with order := k } :: assignOrders (k + 1) rest

/-- Modelled from the spec: Reorder-on-write's pure core (spec 4.2): "sort
all siblings by VersionKey(version); assign order = 1..N in that sorted
sequence". -/
def reorder (siblings : List VersionedEntity) : List VersionedEntity :=
  assignOrders 1 (siblings.insertionSort entityLe)

/-- Storage-layer failure (spec section 7): I/O or conflict during
persistence. -/
inductive StorageError where
  | conflict
  | ioFailure
deriving DecidableEq

/-- Persist every entity of a list in turn with the storage collaborator's
`save`, stopping at and returning the first failure. -/
def saveAll (save : VersionedEntity → Except StorageError Unit) :
    List VersionedEntity → Except StorageError Unit
  | [] => .ok ()
  | e :: rest =>
      match save e with
      | .ok _ => saveAll save rest
      | .error err => .error err

/-- Modelled from the spec: the full Reorder-on-write operation (spec 4.2):
recompute every sibling's rank, persist each updated sibling through the
storage collaborator, and propagate any `StorageError` to the caller rather
than swallowing it. -/
def reorderOnWrite (save : VersionedEntity → Except StorageError Unit)
    (siblings : List VersionedEntity) : Except StorageError (List VersionedEntity) :=
  match saveAll save (reorder siblings) with
  | .ok () => .ok (reorder siblings)
  | .error err => .error err

/-- A `Product`, parent of `ProductVersion`s, with its own team membership. -/
structure Product where
  id : Nat
  team : List Nat
deriving DecidableEq

/-- Modelled from the spec and the test suite: a `ProductVersion` with its
identity fields and its association collections (environments, own team,
runs, case versions), plus the `has_team` flag that selects between an own
team and the parent product's team. -/
structure ProductVersion where
  id : Nat
  product : Product
  version : String
  codename : String
  order : Nat
  has_team : Bool
  own_team : List Nat
  environments : List (String × String)
  runs : List Nat
  caseversions : List Nat
deriving DecidableEq

/-- Modelled from the spec (test suite docstrings): "If `has_team` is True,
ProductVersion's team is its own. If `has_team` is False, ProductVersion's
team is its parent's." -/
def ProductVersion.team (pv : ProductVersion) : List Nat :=
  if pv.has_team then pv.own_team else pv.product.team

/-- Modelled from the spec: Clone (spec 4.3): the new entity gets the source
`version` suffixed with ".next" and the source `codename` prefixed with
"Cloned: "; its team and environment associations are duplicated from the
source; run and case-version associations are not copied; the clone's sibling
position is not inherited (it is reordered as if newly inserted). -/
def ProductVersion.clone (pv : ProductVersion) (newId : Nat) : ProductVersion :=
  { pv with
    id := newId
    version := pv.version ++ ".next"
    codename := "Cloned: " ++ pv.codename
    has_team := true
    own_team := pv.team
    environments := pv.environments
    runs := []
    caseversions := []
    order := 0 }

/-! ### Comparator laws for flattened keys -/

theorem keyLe_total : ∀ a b : List Nat, keyLe a b = true ∨ keyLe b a = true
  | [], _ => Or.inl rfl
  | _ :: _, [] => Or.inr rfl
  | a :: as, b :: bs => by
    rcases Nat.lt_trichotomy a b with h | h | h
    · exact Or.inl (by simp [keyLe, h])
    · subst h
      rcases keyLe_total as bs with ih | ih
      · exact Or.inl (by simp [keyLe, ih])
      · exact Or.inr (by simp [keyLe, ih])
    · exact Or.inr (by simp [keyLe, h])

theorem keyLe_trans : ∀ a b c : List Nat,
    keyLe a b = true → keyLe b c = true → keyLe a c = true
  | [], _, _, _, _ => rfl
  | _ :: _, [], _, h, _ => by simp [keyLe] at h
  | _ :: _, _ :: _, [], _, h => by simp [keyLe] at h
  | a :: as, b :: bs, c :: cs, h1, h2 => by
    simp only [keyLe, Bool.or_eq_true, Bool.and_eq_true, decide_eq_true_eq,
      beq_iff_eq] at h1 h2 ⊢
    rcases h1 with h1 | ⟨rfl, h1⟩
    · rcases h2 with h2 | ⟨rfl, h2⟩
      · exact Or.inl (Nat.lt_trans h1 h2)
      · exact Or.inl h1
    · rcases h2 with h2 | ⟨rfl, h2⟩
      · exact Or.inl h2
      · exact Or.inr ⟨rfl, keyLe_trans as bs cs h1 h2⟩

theorem keyLe_antisymm : ∀ a b : List Nat,
    keyLe a b = true → keyLe b a = true → a = b
  | [], [], _, _ => rfl
  | [], _ :: _, _, h => by simp [keyLe] at h
  | _ :: _, [], h, _ => by simp [keyLe] at h
  | a :: as, b :: bs, h1, h2 => by
    simp only [keyLe, Bool.or_eq_true, Bool.and_eq_true, decide_eq_true_eq,
      beq_iff_eq] at h1 h2
    have hab : a = b := by
      rcases h1 with h1 | ⟨h1, _⟩ <;> rcases h2 with h2 | ⟨h2, _⟩ <;> omega
    subst hab
    rcases h1 with h1 | ⟨_, h1⟩
    · omega
    · rcases h2 with h2 | ⟨_, h2⟩
      · omega
      · rw [keyLe_antisymm as bs h1 h2]

theorem keyLt_append_left : ∀ (k a b : List Nat),
    keyLt a b = true → keyLt (k ++ a) (k ++ b) = true
  | [], _, _, h => h
  | x :: k, a, b, h => by
    simp [keyLt, keyLt_append_left k a b h]

theorem keyLt_keyLe : ∀ a b : List Nat, keyLt a b = true → keyLe a b = true
  | [], [], h => by simp [keyLt] at h
  | [], _ :: _, _ => rfl
  | _ :: _, [], h => by simp [keyLt] at h
  | a :: as, b :: bs, h => by
    simp only [keyLt, Bool.or_eq_true, Bool.and_eq_true, decide_eq_true_eq,
      beq_iff_eq] at h
    simp only [keyLe, Bool.or_eq_true, Bool.and_eq_true, decide_eq_true_eq,
      beq_iff_eq]
    rcases h with h | ⟨rfl, h⟩
    · exact Or.inl h
    · exact Or.inr ⟨rfl, keyLt_keyLe as bs h⟩

instance : IsTotal String versionLe := ⟨fun _ _ => keyLe_total _ _⟩

instance : IsTrans String versionLe := ⟨fun _ _ _ => keyLe_trans _ _ _⟩

instance : IsTotal VersionedEntity entityLe := ⟨fun _ _ => keyLe_total _ _⟩

instance : IsTrans VersionedEntity entityLe := ⟨fun _ _ _ => keyLe_trans _ _ _⟩

/-! ### Token-stream lemmas -/

theorem tokensAux_digits : ∀ (cs : List Char) (n : Nat), (∀ c ∈ cs, c.isDigit) →
    tokensAux (some n) cs = [48, cs.foldl (fun a c => a * 10 + (c.toNat - 48)) n + 1]
  | [], _, _ => rfl
  | c :: cs, n, h => by
    have hc : c.isDigit = true := h c (List.mem_cons_self c cs)
    simp only [tokensAux, hc, if_true, List.foldl_cons]
    exact tokensAux_digits cs _ (fun d hd => h d (List.mem_cons_of_mem c hd))

/-- On a nonempty all-digit string, the token stream is a single numeric-run
token carrying the string's numeric value. -/
theorem tokens_digits (cs : List Char) (hne : cs ≠ []) (hall : ∀ c ∈ cs, c.isDigit) :
    tokens cs = [48, digitsToNat cs + 1] := by
  cases cs with
  | nil => exact absurd rfl hne
  | cons c rest =>
    have hc : c.isDigit = true := hall c (List.mem_cons_self c rest)
    simp only [tokens, tokensAux, hc, if_true]
    rw [tokensAux_digits rest _ (fun d hd => hall d (List.mem_cons_of_mem c hd))]
    simp [digitsToNat]

/-- The token stream distributes over appending a suffix that starts with a
non-digit character (the digit run in progress, if any, cannot straddle the
boundary). -/
theorem tokensAux_append : ∀ (v : List Char) (acc : Option Nat) (d : Char)
    (ws : List Char), d.isDigit = false →
    tokensAux acc (v ++ d :: ws) = tokensAux acc v ++ tokens (d :: ws)
  | [], acc, d, ws, hd => by
    cases acc <;> simp [tokensAux, tokens, hd]
  | c :: v, acc, d, ws, hd => by
    cases acc with
    | none =>
      by_cases hc : c.isDigit
      · simpa [tokensAux, hc] using tokensAux_append v _ d ws hd
      · simpa [tokensAux, hc] using tokensAux_append v none d ws hd
    | some n =>
      by_cases hc : c.isDigit
      · simpa [tokensAux, hc] using tokensAux_append v _ d ws hd
      · simpa [tokensAux, hc] using tokensAux_append v none d ws hd

theorem tokens_append_nondigit (v : List Char) (d : Char) (ws : List Char)
    (hd : d.isDigit = false) : tokens (v ++ d :: ws) = tokens v ++ tokens (d :: ws) :=
  tokensAux_append v none d ws hd

/-- An alphabetic character's code point lies strictly below the terminal
marker 126. -/
theorem alpha_toNat_lt (c : Char) (h : c.isAlpha = true) : c.toNat < 126 := by
  simp only [Char.isAlpha, Char.isUpper, Char.isLower, Bool.or_eq_true,
    Bool.and_eq_true, decide_eq_true_eq] at h
  have hval : c.val.toNat < 126 := by
    rcases h with ⟨_, h2⟩ | ⟨_, h2⟩
    · have := @UInt32.toNat_le_of_le c.val 90 (by decide) h2
      omega
    · have := @UInt32.toNat_le_of_le c.val 122 (by decide) h2
      omega
  simpa [Char.toNat] using hval

/-- An alphabetic character is not a digit. -/
theorem alpha_not_digit (c : Char) (h : c.isAlpha = true) : c.isDigit = false := by
  simp only [Char.isAlpha, Char.isUpper, Char.isLower, Bool.or_eq_true,
    Bool.and_eq_true, decide_eq_true_eq] at h
  simp only [Char.isDigit, Bool.and_eq_false_iff, decide_eq_false_iff_not]
  rcases h with ⟨h1, _⟩ | ⟨h1, _⟩
  · exact Or.inr (fun hle => absurd (UInt32.le_trans h1 hle) (by decide))
  · exact Or.inr (fun hle => absurd (UInt32.le_trans h1 hle) (by decide))

/-! ### Reorder lemmas -/

theorem assignOrders_map_order : ∀ (k : Nat) (l : List VersionedEntity),
    (assignOrders k l).map (fun e => e.order) = List.range' k l.length
  | _, [] => rfl
  | k, e :: rest => by
    simp only [assignOrders, List.map_cons, List.length_cons, List.range'_succ]
    rw [assignOrders_map_order (k + 1) rest]

theorem assignOrders_map_version : ∀ (k : Nat) (l : List VersionedEntity),
    (assignOrders k l).map (fun e => e.version) = l.map (fun e => e.version)
  | _, [] => rfl
  | k, e :: rest => by
    simp only [assignOrders, List.map_cons]
    rw [assignOrders_map_version (k + 1) rest]

theorem mem_assignOrders : ∀ (k : Nat) (l : List VersionedEntity)
    (e' : VersionedEntity), e' ∈ assignOrders k l →
    ∃ x, x ∈ l ∧ ∃ j, e' = { x with order := j }
  | k, x :: rest, e', he' => by
    rcases List.mem_cons.mp he' with rfl | hmem
    · exact ⟨x, List.mem_cons_self x rest, k, rfl⟩
    · rcases mem_assignOrders (k + 1) rest e' hmem with ⟨y, hy, j, rfl⟩
      exact ⟨y, List.mem_cons_of_mem x hy, j, rfl⟩

theorem pairwise_assignOrders : ∀ (k : Nat) (l : List VersionedEntity),
    l.Pairwise entityLe → (assignOrders k l).Pairwise entityLe
  | _, [], _ => List.Pairwise.nil
  | k, e :: rest, h => by
    rcases List.pairwise_cons.mp h with ⟨hhead, htail⟩
    refine List.pairwise_cons.mpr ⟨?_, pairwise_assignOrders (k + 1) rest htail⟩
    intro e' he'
    rcases mem_assignOrders (k + 1) rest e' he' with ⟨x, hx, j, rfl⟩
    exact hhead x hx

theorem assignOrders_idem : ∀ (k : Nat) (l : List VersionedEntity),
    assignOrders k (assignOrders k l) = assignOrders k l
  | _, [] => rfl
  | k, e :: rest => by
    simp only [assignOrders]
    rw [assignOrders_idem (k + 1) rest]

theorem assignOrders_get : ∀ (k : Nat) (l : List VersionedEntity) (e : VersionedEntity),
    e ∈ l → ∃ i, ∃ hi : i < (assignOrders k l).length,
      (assignOrders k l).get ⟨i, hi⟩ = { e with order := k + i }
  | k, x :: rest, e, he => by
    rcases List.mem_cons.mp he with rfl | hmem
    · refine ⟨0, ?_, ?_⟩
      · simp [assignOrders]
      · simp [assignOrders]
    · rcases assignOrders_get (k + 1) rest e hmem with ⟨i, hi, hget⟩
      have hlen : i + 1 < (assignOrders k (x :: rest)).length := by
        simp only [assignOrders, List.length_cons]
        exact Nat.succ_lt_succ hi
      refine ⟨i + 1, hlen, ?_⟩
      have hstep : (assignOrders k (x :: rest)).get ⟨i + 1, hlen⟩ =
          (assignOrders (k + 1) rest).get ⟨i, hi⟩ := rfl
      rw [hstep, hget]
      have harith : k + 1 + i = k + (i + 1) := by omega
      rw [harith]

/-- After `reorder`, the sibling list is sorted by `by_version` keys. -/
theorem reorder_pairwise (siblings : List VersionedEntity) :
    (reorder siblings).Pairwise entityLe :=
  pairwise_assignOrders 1 _ (List.sorted_insertionSort entityLe siblings)

/-- After `reorder`, the `order` values are exactly 1..N down the list. -/
theorem reorder_map_order (siblings : List VersionedEntity) :
    (reorder siblings).map (fun e => e.order) = List.range' 1 siblings.length := by
  rw [reorder, assignOrders_map_order, List.length_insertionSort]

/-- `reorder` only re-ranks: the multiset of version strings is unchanged. -/
theorem reorder_map_version_perm (siblings : List VersionedEntity) :
    List.Perm ((reorder siblings).map (fun e => e.version))
      (siblings.map (fun e => e.version)) := by
  rw [reorder, assignOrders_map_version]
  exact (List.perm_insertionSort entityLe siblings).map _

theorem reorder_reorder (siblings : List VersionedEntity) :
    reorder (reorder siblings) = reorder siblings := by
  conv_lhs => rw [reorder]
  rw [List.Sorted.insertionSort_eq (reorder_pairwise siblings), reorder,
    assignOrders_idem]

/-! ### Persistence lemmas -/

theorem saveAll_error_of_mem (save : VersionedEntity → Except StorageError Unit) :
    ∀ (l : List VersionedEntity) (e : VersionedEntity) (err : StorageError),
    e ∈ l → save e = .error err →
    ∃ errp, saveAll save l = .error errp ∧ ∃ x, x ∈ l ∧ save x = .error errp
  | x :: rest, e, err, he, herr => by
    rcases hx : save x with errx | val
    · exact ⟨errx, by simp [saveAll, hx], x, List.mem_cons_self x rest, hx⟩
    · rcases List.mem_cons.mp he with rfl | hmem
      · rw [hx] at herr; cases herr
      · rcases saveAll_error_of_mem save rest e err hmem herr with ⟨errp, hall, y, hy, hsy⟩
        refine ⟨errp, ?_, y, List.mem_cons_of_mem x hy, hsy⟩
        simpa [saveAll, hx] using hall

/-! ### Claim theorems -/

/-- C1: After Reorder-on-write runs on a sibling set, the siblings' `order`
values form a contiguous 1-based ranking (1..N) consistent with the
VersionKey ordering of their `version` strings, and the version multiset is
unchanged; in particular inserting versions "2.11", "2.9", "2.10" under one
parent yields the sibling sequence ["2.9", "2.10", "2.11"], and editing one
sibling's version from "2.12" to "2.10" (between two others) re-ranks all
three. -/
theorem C1_reorder_invariant :
    (∀ siblings : List VersionedEntity,
      (reorder siblings).map (fun e => e.order) = List.range' 1 siblings.length ∧
      (reorder siblings).Pairwise entityLe ∧
      List.Perm ((reorder siblings).map (fun e => e.version))
        (siblings.map (fun e => e.version))) ∧
    (reorder [⟨1, "2.11", "", 0, 7⟩, ⟨2, "2.9", "", 0, 7⟩, ⟨3, "2.10", "", 0, 7⟩]).map
      (fun e => (e.version, e.order)) = [("2.9", 1), ("2.10", 2), ("2.11", 3)] ∧
    (reorder ((reorder [⟨1, "2.11", "", 0, 7⟩, ⟨2, "2.9", "", 0, 7⟩,
        ⟨3, "2.12", "", 0, 7⟩]).map
        (fun e => if e.id == 3 then { e with version := "2.10" } else e))).map
      (fun e => (e.version, e.order)) = [("2.9", 1), ("2.10", 2), ("2.11", 3)] :=
  ⟨fun siblings => ⟨reorder_map_order siblings, reorder_pairwise siblings,
    reorder_map_version_perm siblings⟩, by decide, by decide⟩

/-- C2: VersionKey compares numeric segments by numeric value rather than
lexicographically: any two nonempty all-digit version strings order by their
numeric values, sorting ["11", "2"] by the key yields ["2", "11"], and
sorting ["1.1.a11", "1.1.a2"] yields ["1.1.a2", "1.1.a11"] even though the
numerals are adjacent to letters. -/
theorem C2_numeric_segments_compare_numerically (a b : List Char)
    (ha : a ≠ []) (hb : b ≠ [])
    (hda : ∀ c ∈ a, c.isDigit) (hdb : ∀ c ∈ b, c.isDigit)
    (hlt : digitsToNat a < digitsToNat b) :
    keyLt (versionKey (String.mk a)) (versionKey (String.mk b)) = true ∧
    sortVersions ["11", "2"] = ["2", "11"] ∧
    sortVersions ["1.1.a11", "1.1.a2"] = ["1.1.a2", "1.1.a11"] := by
  refine ⟨?_, by decide, by decide⟩
  have hka : versionKey (String.mk a) = [48, digitsToNat a + 1, 126] := by
    simp [versionKey, tokens_digits a ha hda]
  have hkb : versionKey (String.mk b) = [48, digitsToNat b + 1, 126] := by
    simp [versionKey, tokens_digits b hb hdb]
  rw [hka, hkb]
  simp [keyLt]
  omega

theorem C2_numeric_segments_compare_numerically_witness :
    keyLt (versionKey (String.mk ['2'])) (versionKey (String.mk ['1', '1'])) = true ∧
    sortVersions ["11", "2"] = ["2", "11"] ∧
    sortVersions ["1.1.a11", "1.1.a2"] = ["1.1.a2", "1.1.a11"] :=
  C2_numeric_segments_compare_numerically ['2'] ['1', '1']
    (by decide) (by decide) (by decide) (by decide) (by decide)

/-- C3: A version string extended by a purely alphabetic pre-release suffix
sorts before the bare (final) version: VersionKey orders the suffixed string
first, and sorting ["1.1", "1.1a"] by the key yields ["1.1a", "1.1"]. -/
theorem C3_pre_release_precedes_final (v : String) (d : Char) (ws : List Char)
    (halpha : ∀ c ∈ d :: ws, c.isAlpha = true) :
    keyLt (versionKey (v ++ String.mk (d :: ws))) (versionKey v) = true ∧
    sortVersions ["1.1", "1.1a"] = ["1.1a", "1.1"] := by
  refine ⟨?_, by decide⟩
  have hd : d.isDigit = false := alpha_not_digit d (halpha d (List.mem_cons_self d ws))
  have hsplit : versionKey (v ++ String.mk (d :: ws)) =
      tokens v.data ++ (tokens (d :: ws) ++ [126]) := by
    simp [versionKey, String.data_append, tokens_append_nondigit v.data d ws hd,
      List.append_assoc]
  rw [hsplit]
  show keyLt (tokens v.data ++ (tokens (d :: ws) ++ [126]))
    (tokens v.data ++ [126]) = true
  apply keyLt_append_left
  have hexp : tokens (d :: ws) = d.toNat :: 0 :: tokensAux none ws := by
    simp [tokens, tokensAux, hd]
  rw [hexp]
  have hlt : d.toNat < 126 := alpha_toNat_lt d (halpha d (List.mem_cons_self d ws))
  simp [keyLt, hlt]

theorem C3_pre_release_precedes_final_witness :
    keyLt (versionKey ("1.1" ++ String.mk ['a'])) (versionKey "1.1") = true ∧
    sortVersions ["1.1", "1.1a"] = ["1.1a", "1.1"] :=
  C3_pre_release_precedes_final "1.1" 'a' [] (by decide)

/-- C4: `clone` returns a new entity distinct from the source whose `version`
is the source version with ".next" appended and whose `codename` is the
source codename with "Cloned: " prepended; cloning version="1.0",
codename="Foo" yields version="1.0.next", codename="Cloned: Foo". -/
theorem C4_clone_field_derivation (pv : ProductVersion) (newId : Nat)
    (hid : newId ≠ pv.id) :
    (pv.clone newId).version = pv.version ++ ".next" ∧
    (pv.clone newId).codename = "Cloned: " ++ pv.codename ∧
    pv.clone newId ≠ pv ∧
    ((ProductVersion.mk 1 ⟨1, []⟩ "1.0" "Foo" 1 false [] [] [] []).clone 2).version
      = "1.0.next" ∧
    ((ProductVersion.mk 1 ⟨1, []⟩ "1.0" "Foo" 1 false [] [] [] []).clone 2).codename
      = "Cloned: Foo" :=
  ⟨rfl, rfl, fun h => hid (congrArg ProductVersion.id h), by decide, by decide⟩

theorem C4_clone_field_derivation_witness :
    ((ProductVersion.mk 1 ⟨1, []⟩ "1.0" "Foo" 1 false [] [] [] []).clone 2).version
        = "1.0" ++ ".next" ∧
    ((ProductVersion.mk 1 ⟨1, []⟩ "1.0" "Foo" 1 false [] [] [] []).clone 2).codename
        = "Cloned: " ++ "Foo" ∧
    (ProductVersion.mk 1 ⟨1, []⟩ "1.0" "Foo" 1 false [] [] [] []).clone 2
        ≠ ProductVersion.mk 1 ⟨1, []⟩ "1.0" "Foo" 1 false [] [] [] [] ∧
    ((ProductVersion.mk 1 ⟨1, []⟩ "1.0" "Foo" 1 false [] [] [] []).clone 2).version
        = "1.0.next" ∧
    ((ProductVersion.mk 1 ⟨1, []⟩ "1.0" "Foo" 1 false [] [] [] []).clone 2).codename
        = "Cloned: Foo" :=
  C4_clone_field_derivation (ProductVersion.mk 1 ⟨1, []⟩ "1.0" "Foo" 1 false [] [] [] [])
    2 (by decide)

/-- C5: `clone` duplicates exactly the whitelisted association collections:
the clone's environment count and team-member count equal the source's, while
its run count and case-version count are zero regardless of the source's. -/
theorem C5_clone_association_scope (pv : ProductVersion) (newId : Nat) :
    (pv.clone newId).environments.length = pv.environments.length ∧
    (pv.clone newId).team.length = pv.team.length ∧
    (pv.clone newId).runs.length = 0 ∧
    (pv.clone newId).caseversions.length = 0 := by
  refine ⟨rfl, ?_, rfl, rfl⟩
  simp [ProductVersion.clone, ProductVersion.team]

/-- C6: The entity being saved carries the final computed rank after
Reorder-on-write: every input sibling reappears in the reordered list with
its `order` equal to its 1-based position there, and inserting "2.10" after
an existing "2.9" leaves the saved instance (stale in-memory order 0) with
order 2. -/
theorem C6_saved_instance_order_updated (siblings : List VersionedEntity)
    (e : VersionedEntity) (he : e ∈ siblings) :
    (∃ i, ∃ hi : i < (reorder siblings).length,
      ((reorder siblings).get ⟨i, hi⟩).id = e.id ∧
      ((reorder siblings).get ⟨i, hi⟩).version = e.version ∧
      ((reorder siblings).get ⟨i, hi⟩).order = i + 1) ∧
    (reorder [⟨1, "2.9", "", 1, 7⟩, ⟨2, "2.10", "", 0, 7⟩]).map
      (fun x => (x.id, x.order)) = [(1, 1), (2, 2)] := by
  refine ⟨?_, by decide⟩
  have hmem : e ∈ siblings.insertionSort entityLe :=
    (List.mem_insertionSort entityLe).mpr he
  rcases assignOrders_get 1 (siblings.insertionSort entityLe) e hmem with ⟨i, hi, hget⟩
  refine ⟨i, hi, ?_, ?_, ?_⟩
  · show ((assignOrders 1 (siblings.insertionSort entityLe)).get ⟨i, hi⟩).id = e.id
    rw [hget]
  · show ((assignOrders 1 (siblings.insertionSort entityLe)).get ⟨i, hi⟩).version
      = e.version
    rw [hget]
  · show ((assignOrders 1 (siblings.insertionSort entityLe)).get ⟨i, hi⟩).order = i + 1
    rw [hget]
    show 1 + i = i + 1
    omega

theorem C6_saved_instance_order_updated_witness :
    (∃ i, ∃ hi : i < (reorder [⟨1, "2.9", "", 1, 7⟩, ⟨2, "2.10", "", 0, 7⟩]).length,
      ((reorder [⟨1, "2.9", "", 1, 7⟩, ⟨2, "2.10", "", 0, 7⟩]).get ⟨i, hi⟩).id = 2 ∧
      ((reorder [⟨1, "2.9", "", 1, 7⟩, ⟨2, "2.10", "", 0, 7⟩]).get ⟨i, hi⟩).version
        = "2.10" ∧
      ((reorder [⟨1, "2.9", "", 1, 7⟩, ⟨2, "2.10", "", 0, 7⟩]).get ⟨i, hi⟩).order
        = i + 1) ∧
    (reorder [⟨1, "2.9", "", 1, 7⟩, ⟨2, "2.10", "", 0, 7⟩]).map
      (fun x => (x.id, x.order)) = [(1, 1), (2, 2)] :=
  C6_saved_instance_order_updated [⟨1, "2.9", "", 1, 7⟩, ⟨2, "2.10", "", 0, 7⟩]
    ⟨2, "2.10", "", 0, 7⟩ (by decide)

/-- C7: Reorder-on-write is idempotent: applying `reorder` a second time with
no intervening version changes returns the same sibling list, and in
particular assigns every sibling the same `order` value as the first
application. -/
theorem C7_reorder_idempotent (siblings : List VersionedEntity) :
    reorder (reorder siblings) = reorder siblings ∧
    (reorder (reorder siblings)).map (fun e => e.order) =
      (reorder siblings).map (fun e => e.order) :=
  ⟨reorder_reorder siblings, by rw [reorder_reorder siblings]⟩

/-- C8: `versionKey` (the `by_version` sort key) is a pure, total,
deterministic function on arbitrary strings, yielding a valid sort key:
the induced comparison is total, transitive and antisymmetric up to key
equality, and the key is defined on the empty string, purely alphabetic
strings, and mixed segments. -/
theorem C8_versionkey_total_comparator :
    (∀ a b : String, versionLe a b ∨ versionLe b a) ∧
    (∀ a b c : String, versionLe a b → versionLe b c → versionLe a c) ∧
    (∀ a b : String, versionLe a b → versionLe b a → versionKey a = versionKey b) ∧
    versionKey "" = [126] ∧
    versionKey "abc" = [97, 0, 98, 0, 99, 0, 126] ∧
    versionKey "1.1.a2" = [48, 2, 46, 0, 48, 2, 46, 0, 97, 0, 48, 3, 126] :=
  ⟨fun _ _ => keyLe_total _ _, fun _ _ _ => keyLe_trans _ _ _,
    fun _ _ h1 h2 => keyLe_antisymm _ _ h1 h2, by decide, by decide, by decide⟩

/-- C9: If persisting the updated order of any sibling fails with a
`StorageError`, Reorder-on-write surfaces a storage error raised by one of
the siblings' saves to the caller instead of returning the renumbered set. -/
theorem C9_reorder_propagates_storage_error
    (save : VersionedEntity → Except StorageError Unit)
    (siblings : List VersionedEntity) (e : VersionedEntity) (err : StorageError)
    (he : e ∈ reorder siblings) (herr : save e = .error err) :
    ∃ errp, reorderOnWrite save siblings = .error errp ∧
      ∃ x, x ∈ reorder siblings ∧ save x = .error errp := by
  rcases saveAll_error_of_mem save (reorder siblings) e err he herr with
    ⟨errp, hall, y, hy, hsy⟩
  exact ⟨errp, by simp [reorderOnWrite, hall], y, hy, hsy⟩

theorem C9_reorder_propagates_storage_error_witness :
    ∃ errp, reorderOnWrite
        (fun x => if x.id == 1 then Except.error StorageError.conflict else Except.ok ())
        [⟨1, "2.9", "", 0, 7⟩] = Except.error errp ∧
      ∃ x, x ∈ reorder [⟨1, "2.9", "", 0, 7⟩] ∧
        (fun x => if x.id == 1 then Except.error StorageError.conflict
          else Except.ok ()) x = Except.error errp :=
  C9_reorder_propagates_storage_error
    (fun x => if x.id == 1 then Except.error StorageError.conflict else Except.ok ())
    [⟨1, "2.9", "", 0, 7⟩] ⟨1, "2.9", "", 1, 7⟩ StorageError.conflict
    (by decide) rfl

/-- C10: A ProductVersion's team is selected by its `has_team` flag: when it
is true, `team` is exactly the version's own team association; when it is
false, `team` is exactly the parent Product's team. -/
theorem C10_team_selected_by_has_team (p : Product) (i o : Nat) (v c : String)
    (own : List Nat) (envs : List (String × String)) (rs cvs : List Nat) :
    (ProductVersion.mk i p v c o true own envs rs cvs).team = own ∧
    (ProductVersion.mk i p v c o false own envs rs cvs).team = p.team :=
  ⟨rfl, rfl⟩

end CaseConductor
